import Mathlib

/-!
Shallow embedding of the download engine of `internal/server/server.go`
(package `server` of the vget media-download backend), together with
theorems checking the specification's claims about it.

The embedding models:
 - `selectBestFormat` (format selection for video media);
 - the strategy dispatch of `downloadWithExtractor` (dual-stream / HLS /
   plain, and the image loop);
 - `downloadFile` (the plain HTTP downloader: status check, chunked
   streaming loop, progress callbacks, cooperative cancellation);
 - `downloadVideoWithAudio` (the dual-stream merger);
 - output-path resolution (manifest-extension correction, sibling audio
   path) and the local-file-download guard of `handleFileDownload`.

Machine integers: Go `int64` byte counters stay far from overflow in any
run we reason about, so they are modelled as `Int`; `Bitrate` is an `int`
modelled as `Int`.  Strings are Go strings of bytes; all literals compared
by the code are ASCII, so `String`/`List Char` with an ASCII lowering
faithfully models `strings.ToLower` on every comparison the code makes.
-/

namespace VGet

/-- ASCII lowering of one character.  Models Go `strings.ToLower` on the
ASCII range, which covers every literal the code compares against. -/
def lowerChar (c : Char) : Char :=
  if 'A' ≤ c ∧ c ≤ 'Z' then Char.ofNat (c.toNat + 32) else c

/-- Models `strings.ToLower` (restricted to ASCII, see `lowerChar`). -/
def strLower (s : String) : String :=
  String.mk (s.data.map lowerChar)

/-- `listStarts s p`: the character list `s` begins with `p`.
Models Go `strings.HasPrefix` on the underlying characters. -/
def listStarts : List Char → List Char → Bool
  | _, [] => true
  | [], _ :: _ => false
  | a :: s, b :: p => a == b && listStarts s p

/-- `listEnds s suf`: the character list `s` ends with `suf`.
Models Go `strings.HasSuffix`. -/
def listEnds (s suf : List Char) : Bool :=
  listStarts s.reverse suf.reverse

/-- `listHasSub s sub`: `sub` occurs contiguously inside `s`.
Models Go `strings.Contains`. -/
def listHasSub : List Char → List Char → Bool
  | [], sub => listStarts [] sub
  | s@(_ :: rest), sub => listStarts s sub || listHasSub rest sub

/-- One entry of `VideoMedia.Formats` (`extractor.VideoFormat`): fetch URL,
optional paired-audio URL (empty string when absent), request headers,
bitrate, container extension. -/
structure VideoFormat where
  url : String
  audioURL : String
  headers : List (String × String)
  bitrate : Int
  fmtExt : String
deriving Repr, DecidableEq

/-- First loop of `selectBestFormat` (server.go:949-957): scan the formats
keeping the first format with a non-empty `AudioURL` of maximal bitrate
(strict `>` keeps the earliest among ties). -/
def bestWithAudioAux : Option VideoFormat → List VideoFormat → Option VideoFormat
  | acc, [] => acc
  | none, f :: rest =>
    if f.audioURL ≠ "" then bestWithAudioAux (some f) rest
    else bestWithAudioAux none rest
  | some b, f :: rest =>
    if f.audioURL ≠ "" then
      if f.bitrate > b.bitrate then bestWithAudioAux (some f) rest
      else bestWithAudioAux (some b) rest
    else bestWithAudioAux (some b) rest

/-- Second loop of `selectBestFormat` (server.go:962-967): plain maximum by
bitrate over all formats, starting from `formats[0]`, strict `>`. -/
def bestOverallAux : VideoFormat → List VideoFormat → VideoFormat
  | b, [] => b
  | b, f :: rest =>
    if f.bitrate > b.bitrate then bestOverallAux f rest
    else bestOverallAux b rest

/-- `selectBestFormat` (server.go:944-969): `none` on an empty slice;
otherwise the best format with a non-empty paired-audio URL when one
exists, else the format with the globally highest bitrate. -/
def selectBestFormat : List VideoFormat → Option VideoFormat
  | [] => none
  | f :: rest =>
    match bestWithAudioAux none (f :: rest) with
    | some b => some b
    | none => some (bestOverallAux f (f :: rest))

/-- The spec's worked example, format with bitrate 500 and no audio. -/
def fmt500 : VideoFormat :=
  { url := "v500", audioURL := "", headers := [], bitrate := 500, fmtExt := "mp4" }

/-- The spec's worked example, format with bitrate 300 and audio URL X. -/
def fmt300 : VideoFormat :=
  { url := "v300", audioURL := "X", headers := [], bitrate := 300, fmtExt := "mp4" }

/-- The spec's worked example, format with bitrate 900 and no audio. -/
def fmt900 : VideoFormat :=
  { url := "v900", audioURL := "", headers := [], bitrate := 900, fmtExt := "mp4" }

/-! ## Strategy dispatch of `downloadWithExtractor` -/

/-- The three fetch strategies the engine can hand a descriptor to. -/
inductive Strategy
  | dualStream
  | hls
  | plain
deriving Repr, DecidableEq

/-- The segmented-manifest recognizer of `downloadWithExtractor`
(server.go:718-719): the lower-cased fetch URL ends in `.m3u8`, or
contains `.m3u8?` anywhere. -/
def isHLSURL (u : String) : Bool :=
  listEnds (strLower u).data ".m3u8".data ||
  listHasSub (strLower u).data ".m3u8?".data

/-- Strategy chosen for a video download (server.go:653-655 then 717-730):
a non-empty paired-audio URL dispatches to `downloadVideoWithAudio`
(dual-stream); otherwise the shared manifest check on the fetch URL decides
between the HLS downloader and `downloadFile`. -/
def videoStrategy (f : VideoFormat) : Strategy :=
  if f.audioURL ≠ "" then .dualStream
  else if isHLSURL f.url then .hls
  else .plain

/-- Strategy chosen for an audio download (server.go:657-677 falls through
to the shared manifest check at 717-730 on `m.URL`). -/
def audioStrategy (url : String) : Strategy :=
  if isHLSURL url then .hls else .plain

/-! ## `downloadFile`: the plain HTTP downloader

The response delivered by `client.Do` is modelled by its status code, its
`ContentLength` (per `net/http`, the declared length, or `-1` when the
header does not declare one), and the sizes of the successive successful
`Body.Read` calls; after those, `Read` reports `io.EOF`, or a read error
when `readErr` is set.  (Go may also return the final bytes together with
`io.EOF` in one call; the loop handles that case identically to a chunk
followed by a bare `io.EOF`, so the model folds it into `chunks`.)
Cancellation (`ctx.Done()`) is modelled by the index of the first loop
iteration whose `select` check observes the signal closed; `none` means the
context is never cancelled.  File creation and writes are modelled as
succeeding (the claims under check are not about filesystem failures). -/

structure DlResponse where
  statusCode : Nat
  contentLength : Int
  chunks : List Nat
  readErr : Bool
deriving Repr, DecidableEq

/-- Outcome of `downloadFile`: success, the status-code error path
(server.go:998-1000), the cancellation path (`ctx.Err()`,
server.go:1014-1016), or a body read error (server.go:1034-1036). -/
inductive DlResult
  | ok
  | statusError (code : Nat)
  | cancelled
  | readError
deriving Repr, DecidableEq

/-- Whether the `select` check at iteration `idx` observes cancellation. -/
def cancelHit (cancelAt : Option Nat) (idx : Nat) : Bool :=
  match cancelAt with
  | none => false
  | some k => decide (k ≤ idx)

/-- The streaming loop of `downloadFile` (server.go:1013-1037).  Returns
the list of progress-callback invocations `(downloaded, total)` in order,
and the loop's outcome.  Each iteration first checks cancellation, then
reads one chunk, writes it, and reports progress. -/
def dlLoop (cancelAt : Option Nat) (total : Int) (readErr : Bool) :
    List Nat → Nat → Int → List (Int × Int) × DlResult
  | chunks, idx, downloaded =>
    if cancelHit cancelAt idx then ([], .cancelled)
    else
      match chunks with
      | [] => ([], if readErr then .readError else .ok)
      | n :: rest =>
        let d := downloaded + n
        let out := dlLoop cancelAt total readErr rest (idx + 1) d
        ((d, total) :: out.1, out.2)

/-- `downloadFile` (server.go:971-1040) after the request has been built
and `client.Do` has returned `resp`: any status other than `http.StatusOK`
(200) fails with an error carrying that status; otherwise the body is
streamed by `dlLoop` with `total := resp.ContentLength`. -/
def downloadFile (cancelAt : Option Nat) (resp : DlResponse) :
    List (Int × Int) × DlResult :=
  if resp.statusCode ≠ 200 then ([], .statusError resp.statusCode)
  else dlLoop cancelAt resp.contentLength resp.readErr resp.chunks 0 0

/-- The cumulative byte totals after each chunk, starting from `d`. -/
def cumSums : Int → List Nat → List Int
  | _, [] => []
  | d, n :: rest => (d + n) :: cumSums (d + n) rest

/-! ## `downloadVideoWithAudio`: the dual-stream merger

The two concurrent `downloadFile` calls are modelled by their outcomes
(`none` = success, `some msg` = error); `wg.Wait()` joins both before any
error is inspected, so both always run to completion.  The function body
contains no file-removal call, and the merge collaborator is
`MergeVideoAudioKeepOriginals` (server.go:820), whose contract keeps both
input files; the `…FileRemoved` fields record that the engine never deletes
either sibling file on any path. -/

structure DualInput where
  videoErr : Option String
  audioErr : Option String
  ffmpegAvailable : Bool
  mergeErr : Option String
deriving Repr, DecidableEq

structure DualOutcome where
  result : Option String
  mergeAttempted : Bool
  videoFileRemoved : Bool
  audioFileRemoved : Bool
deriving Repr, DecidableEq

/-- `downloadVideoWithAudio` (server.go:808-831) after both goroutines have
joined: video error first, then audio error; on double success merge only
when `FFmpegAvailable()`, and a merge error is logged, never returned. -/
def downloadVideoWithAudio (inp : DualInput) : DualOutcome :=
  { result :=
      match inp.videoErr with
      | some e => some ("failed to download video stream: " ++ e)
      | none =>
        match inp.audioErr with
        | some e => some ("failed to download audio stream: " ++ e)
        | none => none
    mergeAttempted :=
      inp.videoErr.isNone && inp.audioErr.isNone && inp.ffmpegAvailable
    videoFileRemoved := false
    audioFileRemoved := false }

/-! ## The image loop of `downloadWithExtractor`

`extractor.SanitizeFilename` lives outside this file's source, so the
already-sanitized title is taken as an input (`title`); sanitized names
carry no path separator, so `filepath.Join(outputDir, name)` is modelled as
`outputDir ++ "/" ++ name`. -/

/-- One entry of `ImageMedia.Images`: URL and container extension. -/
structure ImageItem where
  url : String
  imgExt : String
deriving Repr, DecidableEq

/-- Output path for image `i` (0-based) of `count` images
(server.go:688-701): a single image keeps the base name (sanitized title,
or the media ID when the title sanitizes to empty); multiple images get a
`_<i+1>` suffix. -/
def imagePath (outputDir title id : String) (count i : Nat) (e : String) : String :=
  if count = 1 then
    if title ≠ "" then outputDir ++ "/" ++ title ++ "." ++ e
    else outputDir ++ "/" ++ id ++ "." ++ e
  else
    if title ≠ "" then outputDir ++ "/" ++ title ++ "_" ++ toString (i + 1) ++ "." ++ e
    else outputDir ++ "/" ++ id ++ "_" ++ toString (i + 1) ++ "." ++ e

/-- Result of the image branch: the job filename written on success
(`", "`-joined paths, server.go:710), the files written to disk in order,
and the error, if any. -/
structure ImageOutcome where
  jobFilename : Option String
  downloaded : List String
  error : Option String
deriving Repr, DecidableEq

/-- The loop body of the image branch (server.go:687-708), with `dl`
modelling the outcome of `downloadFile(ctx, img.URL, imgPath, nil, nil)`
for each image URL.  `names` accumulates every path appended to
`filenames`, `done` the paths whose download succeeded, both reversed. -/
def downloadImagesAux (dl : String → Option String) (outputDir title id : String)
    (count : Nat) : List ImageItem → Nat → List String → List String → ImageOutcome
  | [], _, names, done =>
    { jobFilename := some (String.intercalate ", " names.reverse)
      downloaded := done.reverse
      error := none }
  | img :: rest, i, names, done =>
    let p := imagePath outputDir title id count i img.imgExt
    match dl img.url with
    | some e =>
      { jobFilename := none
        downloaded := done.reverse
        error := some ("failed to download image " ++ toString (i + 1) ++ ": " ++ e) }
    | none => downloadImagesAux dl outputDir title id count rest (i + 1) (p :: names) (p :: done)

/-- The image branch of `downloadWithExtractor` (server.go:679-711):
empty lists fail with "no images available"; otherwise the images are
fetched one at a time, in list order. -/
def downloadImages (dl : String → Option String) (outputDir title id : String)
    (imgs : List ImageItem) : ImageOutcome :=
  if imgs.length = 0 then
    { jobFilename := none, downloaded := [], error := some "no images available" }
  else downloadImagesAux dl outputDir title id imgs.length imgs 0 [] []

/-- The expected output paths of an image list starting at index `i`. -/
def expectedPaths (outputDir title id : String) (count : Nat) :
    List ImageItem → Nat → List String
  | [], _ => []
  | img :: rest, i =>
    imagePath outputDir title id count i img.imgExt ::
      expectedPaths outputDir title id count rest (i + 1)

/-! ## Video output-path resolution -/

/-- Go `strings.HasSuffix` on strings. -/
def strHasSuf (s suf : String) : Bool :=
  listEnds s.data suf.data

/-- The file name resolved for a video download (server.go:628-648).
`sanitize` stands for `extractor.SanitizeFilename` (defined outside this
source file); `filename` is the job's requested filename, `title`/`id` come
from the media descriptor.  The declared extension `m3u8` is corrected to
`ts` before any name is built. -/
def videoOutputName (sanitize : String → String)
    (filename title id fmtExt : String) : String :=
  let e := if fmtExt = "m3u8" then "ts" else fmtExt
  if filename ≠ "" then
    let sanitized := sanitize filename
    if strHasSuf (strLower sanitized) ("." ++ e) then sanitized
    else sanitized ++ "." ++ e
  else
    let t := sanitize title
    if t ≠ "" then t ++ "." ++ e
    else id ++ "." ++ e

/-- The resolved output path: `filepath.Join(s.outputDir, name)`
(server.go:640,644,646), modelled as separator concatenation.  `Join`'s
path cleaning preserves the final `.`-extension suffix this development
reasons about, because the resolved name always ends in a non-dot segment
suffix. -/
def videoOutputPath (sanitize : String → String)
    (outputDir filename title id fmtExt : String) : String :=
  outputDir ++ "/" ++ videoOutputName sanitize filename title id fmtExt

/-! ## Sibling audio path of `downloadVideoWithAudio` -/

/-- Scan helper for `filepathExt`: walks the reversed character list, with
`acc` holding the characters already passed, in original order. -/
def extAux : List Char → List Char → String
  | [], _ => ""
  | c :: rest, acc =>
    if c = '/' then ""
    else if c = '.' then String.mk ('.' :: acc)
    else extAux rest (c :: acc)

/-- Go `path/filepath.Ext`: the suffix of the final path element starting
at its last dot, or `""` when the final element has no dot. -/
def filepathExt (p : String) : String :=
  extAux p.data.reverse []

/-- Go `strings.TrimSuffix`. -/
def trimSuffix (s suf : String) : String :=
  if listEnds s.data suf.data then String.mk (s.data.take (s.data.length - suf.data.length))
  else s

/-- The sibling audio output path of `downloadVideoWithAudio`
(server.go:749-759): the default audio extension is `m4a`, or `opus` when
the video format's extension is `webm`; the audio file is the video output
path with its extension trimmed and the audio extension appended. -/
def audioSiblingPath (outputPath fmtExt : String) : String :=
  let audioExt := if fmtExt = "webm" then "opus" else "m4a"
  trimSuffix outputPath (filepathExt outputPath) ++ "." ++ audioExt

/-! ## `handleFileDownload`: the local-file-download guard -/

/-- Replies of `handleFileDownload` after the requested path has been made
absolute (the earlier stages, empty `path` parameter and `filepath.Abs`
failure, answer 400 before this guard runs). -/
inductive FileReply
  | forbidden
  | notFound
  | served
deriving Repr, DecidableEq

/-- `handleFileDownload` (server.go:193-216) from the guard on: the file is
served only when `strings.HasPrefix(absPath, absOutputDir)` holds — a
character-level prefix test — and the file exists; a failed prefix test
answers 403, a missing file 404. -/
def handleFileDownload (absOutputDir absPath : String) (fileExists : Bool) : FileReply :=
  if !listStarts absPath.data absOutputDir.data then .forbidden
  else if !fileExists then .notFound
  else .served

/-! ## Helper lemmas about the format-selection loops -/

theorem bestWithAudioAux_mem :
    ∀ (l : List VideoFormat) (acc : Option VideoFormat) (b : VideoFormat),
      bestWithAudioAux acc l = some b → acc = some b ∨ b ∈ l := by
  intro l
  induction l with
  | nil =>
    intro acc b h
    cases acc <;> simp only [bestWithAudioAux] at h
    · exact absurd h (by simp)
    · exact Or.inl h
  | cons f rest ih =>
    intro acc b h
    cases acc with
    | none =>
      simp only [bestWithAudioAux] at h
      by_cases hf : f.audioURL ≠ ""
      · rw [if_pos hf] at h
        rcases ih _ _ h with h1 | h2
        · exact Or.inr (by rw [← Option.some.inj h1]; exact List.mem_cons_self f rest)
        · exact Or.inr (List.mem_cons_of_mem _ h2)
      · rw [if_neg hf] at h
        rcases ih _ _ h with h1 | h2
        · exact Or.inl h1
        · exact Or.inr (List.mem_cons_of_mem _ h2)
    | some a =>
      simp only [bestWithAudioAux] at h
      by_cases hf : f.audioURL ≠ ""
      · rw [if_pos hf] at h
        by_cases hb : f.bitrate > a.bitrate
        · rw [if_pos hb] at h
          rcases ih _ _ h with h1 | h2
          · exact Or.inr (by rw [← Option.some.inj h1]; exact List.mem_cons_self f rest)
          · exact Or.inr (List.mem_cons_of_mem _ h2)
        · rw [if_neg hb] at h
          rcases ih _ _ h with h1 | h2
          · exact Or.inl h1
          · exact Or.inr (List.mem_cons_of_mem _ h2)
      · rw [if_neg hf] at h
        rcases ih _ _ h with h1 | h2
        · exact Or.inl h1
        · exact Or.inr (List.mem_cons_of_mem _ h2)

theorem bestWithAudioAux_audio :
    ∀ (l : List VideoFormat) (acc : Option VideoFormat) (b : VideoFormat),
      (∀ a, acc = some a → a.audioURL ≠ "") →
      bestWithAudioAux acc l = some b → b.audioURL ≠ "" := by
  intro l
  induction l with
  | nil =>
    intro acc b hacc h
    cases acc <;> simp only [bestWithAudioAux] at h
    · exact absurd h (by simp)
    · exact hacc b (by rw [h])
  | cons f rest ih =>
    intro acc b hacc h
    cases acc with
    | none =>
      simp only [bestWithAudioAux] at h
      by_cases hf : f.audioURL ≠ ""
      · rw [if_pos hf] at h
        exact ih _ _ (by intro a ha; rw [← Option.some.inj ha]; exact hf) h
      · rw [if_neg hf] at h
        exact ih _ _ (by intro a ha; cases ha) h
    | some a =>
      have ha : a.audioURL ≠ "" := hacc a rfl
      simp only [bestWithAudioAux] at h
      by_cases hf : f.audioURL ≠ ""
      · rw [if_pos hf] at h
        by_cases hb : f.bitrate > a.bitrate
        · rw [if_pos hb] at h
          exact ih _ _ (by intro x hx; rw [← Option.some.inj hx]; exact hf) h
        · rw [if_neg hb] at h
          exact ih _ _ (by intro x hx; rw [← Option.some.inj hx]; exact ha) h
      · rw [if_neg hf] at h
        exact ih _ _ (by intro x hx; rw [← Option.some.inj hx]; exact ha) h

theorem bestWithAudioAux_max :
    ∀ (l : List VideoFormat) (acc : Option VideoFormat) (b : VideoFormat),
      bestWithAudioAux acc l = some b →
      (∀ a, acc = some a → a.bitrate ≤ b.bitrate) ∧
      (∀ f ∈ l, f.audioURL ≠ "" → f.bitrate ≤ b.bitrate) := by
  intro l
  induction l with
  | nil =>
    intro acc b h
    cases acc with
    | none =>
      simp only [bestWithAudioAux] at h
      exact absurd h (by simp)
    | some a =>
      simp only [bestWithAudioAux] at h
      refine ⟨?_, by intro f hf; exact absurd hf (List.not_mem_nil f)⟩
      intro x hx
      exact le_of_eq (by rw [← Option.some.inj hx, Option.some.inj h])
  | cons f rest ih =>
    intro acc b h
    cases acc with
    | none =>
      simp only [bestWithAudioAux] at h
      by_cases hf : f.audioURL ≠ ""
      · rw [if_pos hf] at h
        have hrec := ih _ _ h
        refine ⟨?_, ?_⟩
        · intro a ha; cases ha
        · intro g hg hga
          rcases List.mem_cons.mp hg with h1 | h2
          · rw [h1]; exact hrec.1 f rfl
          · exact hrec.2 g h2 hga
      · rw [if_neg hf] at h
        have hrec := ih _ _ h
        refine ⟨?_, ?_⟩
        · intro a ha; cases ha
        · intro g hg hga
          rcases List.mem_cons.mp hg with h1 | h2
          · rw [h1] at hga; exact absurd hga hf
          · exact hrec.2 g h2 hga
    | some a =>
      simp only [bestWithAudioAux] at h
      by_cases hf : f.audioURL ≠ ""
      · rw [if_pos hf] at h
        by_cases hb : f.bitrate > a.bitrate
        · rw [if_pos hb] at h
          have hrec := ih _ _ h
          have hfb := hrec.1 f rfl
          refine ⟨?_, ?_⟩
          · intro x hx
            rw [← Option.some.inj hx]
            exact le_trans (le_of_lt hb) hfb
          · intro g hg hga
            rcases List.mem_cons.mp hg with h1 | h2
            · rw [h1]; exact hfb
            · exact hrec.2 g h2 hga
        · rw [if_neg hb] at h
          have hrec := ih _ _ h
          have hab := hrec.1 a rfl
          refine ⟨?_, ?_⟩
          · intro x hx
            rw [← Option.some.inj hx]
            exact hab
          · intro g hg hga
            rcases List.mem_cons.mp hg with h1 | h2
            · rw [h1]; exact le_trans (le_of_not_lt hb) hab
            · exact hrec.2 g h2 hga
      · rw [if_neg hf] at h
        have hrec := ih _ _ h
        have hab := hrec.1 a rfl
        refine ⟨?_, ?_⟩
        · intro x hx
          rw [← Option.some.inj hx]
          exact hab
        · intro g hg hga
          rcases List.mem_cons.mp hg with h1 | h2
          · rw [h1] at hga; exact absurd hga hf
          · exact hrec.2 g h2 hga

theorem bestWithAudioAux_none :
    ∀ (l : List VideoFormat) (acc : Option VideoFormat),
      bestWithAudioAux acc l = none →
      acc = none ∧ ∀ f ∈ l, f.audioURL = "" := by
  intro l
  induction l with
  | nil =>
    intro acc h
    cases acc <;> simp only [bestWithAudioAux] at h
    · exact ⟨rfl, by intro f hf; exact absurd hf (List.not_mem_nil f)⟩
    · exact absurd h (by simp)
  | cons f rest ih =>
    intro acc h
    cases acc with
    | none =>
      simp only [bestWithAudioAux] at h
      by_cases hf : f.audioURL ≠ ""
      · rw [if_pos hf] at h
        exact absurd (ih _ h).1 (by simp)
      · rw [if_neg hf] at h
        have hrec := ih _ h
        refine ⟨rfl, ?_⟩
        intro g hg
        rcases List.mem_cons.mp hg with h1 | h2
        · rw [h1]; exact not_ne_iff.mp hf
        · exact hrec.2 g h2
    | some a =>
      simp only [bestWithAudioAux] at h
      by_cases hf : f.audioURL ≠ ""
      · rw [if_pos hf] at h
        by_cases hb : f.bitrate > a.bitrate
        · rw [if_pos hb] at h; exact absurd (ih _ h).1 (by simp)
        · rw [if_neg hb] at h; exact absurd (ih _ h).1 (by simp)
      · rw [if_neg hf] at h
        exact absurd (ih _ h).1 (by simp)

theorem bestOverallAux_mem :
    ∀ (l : List VideoFormat) (b : VideoFormat),
      bestOverallAux b l = b ∨ bestOverallAux b l ∈ l := by
  intro l
  induction l with
  | nil => intro b; exact Or.inl rfl
  | cons f rest ih =>
    intro b
    simp only [bestOverallAux]
    by_cases hb : f.bitrate > b.bitrate
    · rw [if_pos hb]
      rcases ih f with h1 | h2
      · exact Or.inr (by rw [h1]; exact List.mem_cons_self f rest)
      · exact Or.inr (List.mem_cons_of_mem _ h2)
    · rw [if_neg hb]
      rcases ih b with h1 | h2
      · exact Or.inl h1
      · exact Or.inr (List.mem_cons_of_mem _ h2)

theorem bestOverallAux_max :
    ∀ (l : List VideoFormat) (b : VideoFormat),
      b.bitrate ≤ (bestOverallAux b l).bitrate ∧
      ∀ f ∈ l, f.bitrate ≤ (bestOverallAux b l).bitrate := by
  intro l
  induction l with
  | nil =>
    intro b
    exact ⟨le_refl _, by intro f hf; exact absurd hf (List.not_mem_nil f)⟩
  | cons f rest ih =>
    intro b
    simp only [bestOverallAux]
    by_cases hb : f.bitrate > b.bitrate
    · rw [if_pos hb]
      refine ⟨le_trans (le_of_lt hb) (ih f).1, ?_⟩
      intro g hg
      rcases List.mem_cons.mp hg with h1 | h2
      · rw [h1]; exact (ih f).1
      · exact (ih f).2 g h2
    · rw [if_neg hb]
      refine ⟨(ih b).1, ?_⟩
      intro g hg
      rcases List.mem_cons.mp hg with h1 | h2
      · rw [h1]; exact le_trans (le_of_not_lt hb) (ih b).1
      · exact (ih b).2 g h2

/-- C1: for every non-empty list of video `Format`s, `selectBestFormat`
returns a format of the list; when some format carries a non-empty
paired-audio URL it returns one that does, of maximal bitrate among those;
when none does it returns a format of globally maximal bitrate.  Over the
spec's worked example `[{500, noAudio}, {300, audioURL X}, {900, noAudio}]`
it returns the bitrate-300 format. -/
theorem selectBestFormat_prefers_paired_audio (formats : List VideoFormat)
    (hne : formats ≠ []) :
    (∃ b, selectBestFormat formats = some b ∧ b ∈ formats ∧
      ((∃ f ∈ formats, f.audioURL ≠ "") →
        b.audioURL ≠ "" ∧ ∀ f ∈ formats, f.audioURL ≠ "" → f.bitrate ≤ b.bitrate) ∧
      ((∀ f ∈ formats, f.audioURL = "") → ∀ f ∈ formats, f.bitrate ≤ b.bitrate)) ∧
    selectBestFormat [fmt500, fmt300, fmt900] = some fmt300 := by
  constructor
  · match formats, hne with
    | f :: rest, _ =>
      simp only [selectBestFormat]
      cases hcall : bestWithAudioAux none (f :: rest) with
      | some b =>
        refine ⟨b, rfl, ?_, ?_, ?_⟩
        · rcases bestWithAudioAux_mem _ _ _ hcall with h1 | h2
          · exact absurd h1 (by simp)
          · exact h2
        · intro _
          refine ⟨bestWithAudioAux_audio _ _ _ (by intro a ha; cases ha) hcall, ?_⟩
          exact (bestWithAudioAux_max _ _ _ hcall).2
        · intro hall
          have hb := bestWithAudioAux_audio _ _ _ (by intro a ha; cases ha) hcall
          have hmem : b ∈ f :: rest := by
            rcases bestWithAudioAux_mem _ _ _ hcall with h1 | h2
            · exact absurd h1 (by simp)
            · exact h2
          exact absurd (hall b hmem) hb
      | none =>
        refine ⟨bestOverallAux f (f :: rest), rfl, ?_, ?_, ?_⟩
        · rcases bestOverallAux_mem (f :: rest) f with h1 | h2
          · rw [h1]; exact List.mem_cons_self f rest
          · exact h2
        · intro ⟨g, hg, hga⟩
          exact absurd ((bestWithAudioAux_none _ _ hcall).2 g hg) hga
        · intro _
          exact (bestOverallAux_max (f :: rest) f).2
  · decide

/-! ## Helper lemmas about the character-list string operations -/

theorem listStarts_self_append (p t : List Char) : listStarts (p ++ t) p = true := by
  induction p with
  | nil => cases t <;> simp [listStarts]
  | cons c p ih => simp [listStarts, ih]

theorem listStarts_extend (p : List Char) :
    ∀ x y : List Char, listStarts x p = true → listStarts (x ++ y) p = true := by
  induction p with
  | nil => intro x y _; cases x ++ y <;> simp [listStarts]
  | cons c p ih =>
    intro x y h
    cases x with
    | nil => simp [listStarts] at h
    | cons a x =>
      simp only [listStarts, Bool.and_eq_true] at h
      simp only [List.cons_append, listStarts, Bool.and_eq_true]
      exact ⟨h.1, ih x y h.2⟩

theorem listEnds_append (a b : List Char) : listEnds (a ++ b) b = true := by
  simp only [listEnds, List.reverse_append]
  exact listStarts_self_append b.reverse a.reverse

theorem listEnds_mono (a b s : List Char) (h : listEnds b s = true) :
    listEnds (a ++ b) s = true := by
  simp only [listEnds, List.reverse_append]
  exact listStarts_extend s.reverse b.reverse a.reverse h

theorem listHasSub_self_append (sub q : List Char) :
    listHasSub (sub ++ q) sub = true := by
  cases h : sub ++ q with
  | nil =>
    rcases List.append_eq_nil.mp h with ⟨h1, h2⟩
    rw [h1]
    simp [listHasSub, listStarts]
  | cons x rest =>
    have hs : listStarts (sub ++ q) sub = true := listStarts_self_append sub q
    rw [h] at hs
    simp [listHasSub, hs]

theorem listHasSub_of_append (a sub q : List Char) :
    listHasSub (a ++ (sub ++ q)) sub = true := by
  induction a with
  | nil => simpa using listHasSub_self_append sub q
  | cons c a ih =>
    simp only [List.cons_append, listHasSub, Bool.or_eq_true]
    exact Or.inr ih

theorem strData_append (a b : String) : (a ++ b).data = a.data ++ b.data := rfl

theorem strLower_data_append (a b : String) :
    (strLower (a ++ b)).data = (strLower a).data ++ (strLower b).data := by
  simp [strLower, strData_append, List.map_append]

/-! ## C2: strategy dispatch -/

/-- C2 counterexample: an Audio descriptor whose URL ends in `.m3u8` is
dispatched to the HLS downloader, not the Plain Downloader — the audio
branch of `downloadWithExtractor` falls through to the shared
segmented-manifest check (server.go:717-730). -/
theorem audioStrategy_m3u8_not_plain :
    audioStrategy "http://x/a.m3u8" = Strategy.hls ∧ Strategy.hls ≠ Strategy.plain := by
  constructor
  · decide
  · decide

/-- C2 (amended): for every video download exactly one strategy is chosen,
in this priority: non-empty paired-audio URL → dual-stream merger; fetch
URL recognizable as a segmented-manifest URL (lower-cased suffix `.m3u8`,
or `.m3u8?` before a query string) → HLS downloader; otherwise the plain
downloader.  Audio descriptors use the same manifest check on their URL:
HLS downloader when it is recognized, the plain downloader otherwise. -/
theorem dispatch_strategy (f : VideoFormat) (url base q : String) :
    (f.audioURL ≠ "" → videoStrategy f = Strategy.dualStream) ∧
    (f.audioURL = "" → isHLSURL f.url = true → videoStrategy f = Strategy.hls) ∧
    (f.audioURL = "" → isHLSURL f.url = false → videoStrategy f = Strategy.plain) ∧
    (audioStrategy url = Strategy.hls ↔ isHLSURL url = true) ∧
    (audioStrategy url = Strategy.plain ↔ isHLSURL url = false) ∧
    isHLSURL (base ++ ".m3u8") = true ∧
    isHLSURL (base ++ ".m3u8?" ++ q) = true := by
  refine ⟨?_, ?_, ?_, ?_, ?_, ?_, ?_⟩
  · intro h
    simp [videoStrategy, h]
  · intro h1 h2
    simp [videoStrategy, h1, h2]
  · intro h1 h2
    simp [videoStrategy, h1, h2]
  · cases h : isHLSURL url <;> simp [audioStrategy, h]
  · cases h : isHLSURL url <;> simp [audioStrategy, h]
  · have hdata : (strLower (base ++ ".m3u8")).data =
        (strLower base).data ++ ".m3u8".data := by
      rw [strLower_data_append]
      norm_num [strLower]
      decide
    simp only [isHLSURL, hdata, Bool.or_eq_true]
    exact Or.inl (listEnds_append _ _)
  · have hdata : (strLower (base ++ ".m3u8?" ++ q)).data =
        (strLower base).data ++ (".m3u8?".data ++ (strLower q).data) := by
      rw [strLower_data_append, strLower_data_append]
      norm_num [strLower, List.append_assoc]
      decide
    simp only [isHLSURL, hdata, Bool.or_eq_true]
    exact Or.inr (listHasSub_of_append _ _ _)

/-- Witness for C2's amended theorem: each dispatch arm at a concrete
input. -/
theorem dispatch_strategy_witness :
    videoStrategy fmt300 = Strategy.dualStream ∧
    videoStrategy { url := "http://v/a.m3u8", audioURL := "", headers := [],
                    bitrate := 1, fmtExt := "mp4" } = Strategy.hls ∧
    videoStrategy fmt500 = Strategy.plain ∧
    audioStrategy "http://x/a.mp3" = Strategy.plain :=
  ⟨(dispatch_strategy fmt300 "" "" "").1 (by decide),
   (dispatch_strategy _ "" "" "").2.1 rfl (by decide),
   (dispatch_strategy fmt500 "" "" "").2.2.1 rfl (by decide),
   ((dispatch_strategy fmt500 "http://x/a.mp3" "" "").2.2.2.2.1).mpr (by decide)⟩

/-- Witness for C1 at the spec's worked example. -/
theorem selectBestFormat_prefers_paired_audio_witness :
    (∃ b, selectBestFormat [fmt500, fmt300, fmt900] = some b ∧ b ∈ [fmt500, fmt300, fmt900] ∧
      ((∃ f ∈ [fmt500, fmt300, fmt900], f.audioURL ≠ "") →
        b.audioURL ≠ "" ∧ ∀ f ∈ [fmt500, fmt300, fmt900], f.audioURL ≠ "" → f.bitrate ≤ b.bitrate) ∧
      ((∀ f ∈ [fmt500, fmt300, fmt900], f.audioURL = "") → ∀ f ∈ [fmt500, fmt300, fmt900], f.bitrate ≤ b.bitrate)) ∧
    selectBestFormat [fmt500, fmt300, fmt900] = some fmt300 :=
  selectBestFormat_prefers_paired_audio [fmt500, fmt300, fmt900] (by decide)

/-! ## C3, C4, C7: the plain downloader -/

theorem dlLoop_snd_ne_statusError (ca : Option Nat) (L : Int) (re : Bool) :
    ∀ (chunks : List Nat) (idx : Nat) (d : Int) (c : Nat),
      (dlLoop ca L re chunks idx d).2 ≠ DlResult.statusError c := by
  intro chunks
  induction chunks with
  | nil =>
    intro idx d c
    simp only [dlLoop]
    split
    · simp
    · split <;> simp
  | cons n rest ih =>
    intro idx d c
    simp only [dlLoop]
    split
    · simp
    · exact ih (idx + 1) (d + n) c

/-- C3 (amended): a plain download fails on status grounds, with an error
carrying the HTTP status, exactly when the response status is not 200 —
in particular every non-2xx response fails with its status, but 2xx
statuses other than 200 (e.g. 206) fail too; only a 200 response proceeds
to streaming. -/
theorem downloadFile_statusError_iff (cancelAt : Option Nat) (resp : DlResponse) (c : Nat) :
    (downloadFile cancelAt resp).2 = DlResult.statusError c ↔
      (resp.statusCode ≠ 200 ∧ c = resp.statusCode) := by
  unfold downloadFile
  by_cases h : resp.statusCode ≠ 200
  · rw [if_pos h]
    simp [h, eq_comm]
  · rw [if_neg h]
    push_neg at h
    constructor
    · intro hc
      exact absurd hc (dlLoop_snd_ne_statusError _ _ _ _ _ _ _)
    · intro hc
      exact absurd h hc.1

/-- C3 counterexample: a 206 Partial Content response — a 2xx status —
does not proceed to streaming; `downloadFile` fails with a status error. -/
theorem downloadFile_status206_fails :
    200 ≤ 206 ∧ 206 < 300 ∧
    downloadFile none { statusCode := 206, contentLength := 10, chunks := [10], readErr := false } =
      ([], DlResult.statusError 206) := by
  refine ⟨by norm_num, by norm_num, by decide⟩

theorem dlLoop_none_run (L : Int) (re : Bool) :
    ∀ (chunks : List Nat) (idx : Nat) (d : Int),
      dlLoop none L re chunks idx d =
        ((cumSums d chunks).map (fun x => (x, L)),
         if re then DlResult.readError else DlResult.ok) := by
  intro chunks
  induction chunks with
  | nil =>
    intro idx d
    simp [dlLoop, cancelHit, cumSums]
  | cons n rest ih =>
    intro idx d
    simp [dlLoop, cancelHit, cumSums, ih (idx + 1) (d + n)]

/-- C4 (amended): for every plain download of a 200 response with a
non-null progress callback and no cancellation, the callback runs once
after each chunk with first argument the total bytes written so far and
second argument `resp.ContentLength` verbatim: the declared content length
when the header carries one, and `-1` — the `net/http` unknown sentinel,
not `0` — when it does not. -/
theorem downloadFile_progress_calls (L : Int) (chunks : List Nat) (re : Bool) :
    (downloadFile none { statusCode := 200, contentLength := L, chunks := chunks, readErr := re }).1 =
      (cumSums 0 chunks).map (fun d => (d, L)) := by
  simp [downloadFile, dlLoop_none_run]

/-- C4 counterexample: with an unknown content length the callback's second
argument is `-1`, not `0` as the claim states. -/
theorem downloadFile_unknown_length_neg_one :
    downloadFile none { statusCode := 200, contentLength := -1, chunks := [5], readErr := false } =
      ([((5 : Int), (-1 : Int))], DlResult.ok) ∧ ((-1 : Int) ≠ (0 : Int)) := by
  refine ⟨by decide, by decide⟩

theorem dlLoop_cancel_run (L : Int) (re : Bool) (k : Nat) :
    ∀ (chunks : List Nat) (idx : Nat) (d : Int),
      dlLoop (some k) L re chunks idx d =
        ((cumSums d (chunks.take (k - idx))).map (fun x => (x, L)),
         if k ≤ idx + chunks.length then DlResult.cancelled
         else if re then DlResult.readError else DlResult.ok) := by
  intro chunks
  induction chunks with
  | nil =>
    intro idx d
    simp only [dlLoop, cancelHit, List.take_nil, List.length_nil, Nat.add_zero, cumSums,
      List.map_nil]
    by_cases h : k ≤ idx
    · simp [h]
    · simp [h]
  | cons n rest ih =>
    intro idx d
    have hlen : idx + (n :: rest).length = idx + 1 + rest.length := by
      simp [List.length_cons]
      omega
    simp only [dlLoop, cancelHit]
    by_cases h : k ≤ idx
    · have h2 : k ≤ idx + (rest.length + 1) := by omega
      simp [h, h2, Nat.sub_eq_zero_of_le h, cumSums]
    · have hk : k - idx = (k - (idx + 1)) + 1 := by omega
      simp only [h, decide_eq_true_eq, if_false, decide_False, Bool.false_eq_true,
        ih (idx + 1) (d + n), hk, List.take_succ_cons, cumSums, List.map_cons, hlen]

/-- C7: the cancellation signal is checked before each chunk read; when the
signal is observed from check number `k` on, exactly the first `k` chunks
are read and reported and `downloadFile` returns the cancellation error
(`k ≤ chunks.length`); a signal arriving after the final check does not
affect the run. -/
theorem downloadFile_cancellation (L : Int) (chunks : List Nat) (re : Bool) (k : Nat) :
    downloadFile (some k) { statusCode := 200, contentLength := L, chunks := chunks, readErr := re } =
      ((cumSums 0 (chunks.take k)).map (fun d => (d, L)),
       if k ≤ chunks.length then DlResult.cancelled
       else if re then DlResult.readError else DlResult.ok) := by
  simp [downloadFile, dlLoop_cancel_run]

/-! ## C5: the dual-stream merger -/

/-- C5: a dual-stream job fails exactly when one of the two downloads
fails (and no file is ever removed, so the other stream's partial file
stays on disk); when both succeed, the merge runs exactly when the remux
tool is available, and the job result does not depend on the merge
outcome — a merge failure never fails the job, and an unavailable tool
skips merging with the job still succeeding, both sibling files present. -/
theorem downloadVideoWithAudio_policy (inp : DualInput) :
    ((downloadVideoWithAudio inp).result = none ↔
      (inp.videoErr = none ∧ inp.audioErr = none)) ∧
    ((downloadVideoWithAudio inp).mergeAttempted = true ↔
      (inp.videoErr = none ∧ inp.audioErr = none ∧ inp.ffmpegAvailable = true)) ∧
    ((downloadVideoWithAudio inp).result =
      (downloadVideoWithAudio { inp with mergeErr := none }).result) ∧
    (downloadVideoWithAudio inp).videoFileRemoved = false ∧
    (downloadVideoWithAudio inp).audioFileRemoved = false := by
  obtain ⟨v, a, ff, m⟩ := inp
  refine ⟨?_, ?_, rfl, rfl, rfl⟩
  · cases v <;> cases a <;> simp [downloadVideoWithAudio]
  · cases v <;> cases a <;> cases ff <;> simp [downloadVideoWithAudio]

/-! ## C6: the image loop -/

theorem downloadImagesAux_success (dl : String → Option String)
    (outputDir title id : String) (count : Nat) :
    ∀ (imgs : List ImageItem) (i : Nat) (names done : List String),
      (∀ img ∈ imgs, dl img.url = none) →
      downloadImagesAux dl outputDir title id count imgs i names done =
        { jobFilename := some (String.intercalate ", "
            (names.reverse ++ expectedPaths outputDir title id count imgs i))
          downloaded := done.reverse ++ expectedPaths outputDir title id count imgs i
          error := none } := by
  intro imgs
  induction imgs with
  | nil =>
    intro i names done _
    simp [downloadImagesAux, expectedPaths]
  | cons img rest ih =>
    intro i names done h
    have h1 : dl img.url = none := h img (List.mem_cons_self _ _)
    simp only [downloadImagesAux, h1, expectedPaths]
    rw [ih (i + 1) _ _ (fun g hg => h g (List.mem_cons_of_mem _ hg))]
    simp [List.reverse_cons, List.append_assoc]

theorem downloadImagesAux_fail (dl : String → Option String)
    (outputDir title id : String) (count : Nat) (bad : ImageItem) (e : String)
    (hbad : dl bad.url = some e) (rest : List ImageItem) :
    ∀ (good : List ImageItem) (i : Nat) (names done : List String),
      (∀ g ∈ good, dl g.url = none) →
      downloadImagesAux dl outputDir title id count (good ++ bad :: rest) i names done =
        { jobFilename := none
          downloaded := done.reverse ++ expectedPaths outputDir title id count good i
          error := some ("failed to download image " ++ toString (i + good.length + 1) ++ ": " ++ e) } := by
  intro good
  induction good with
  | nil =>
    intro i names done _
    simp [downloadImagesAux, hbad, expectedPaths]
  | cons g grest ih =>
    intro i names done h
    have h1 : dl g.url = none := h g (List.mem_cons_self _ _)
    simp only [List.cons_append, downloadImagesAux, h1, expectedPaths]
    rw [List.append_eq, ih (i + 1) _ _ (fun x hx => h x (List.mem_cons_of_mem _ hx))]
    have hidx : i + 1 + grest.length + 1 = i + (g :: grest).length + 1 := by
      simp [List.length_cons]
      omega
    rw [hidx]
    simp [List.reverse_cons, List.append_assoc]

/-- C6: for every Image descriptor with a non-empty image list the images
are fetched sequentially in list order; a single image keeps the base name
and multiple images get a 1-based `_<k>` index suffix; when every download
succeeds the job's resolved `Filename` is the `", "`-joined list of all
image paths; the first failing image aborts the job with an error naming
its 1-based position, leaving exactly the previously downloaded images on
disk. -/
theorem downloadImages_sequential (dl : String → Option String)
    (outputDir title id : String) (imgs good rest : List ImageItem)
    (bad : ImageItem) (e : String) :
    ((imgs ≠ [] ∧ ∀ img ∈ imgs, dl img.url = none) →
      downloadImages dl outputDir title id imgs =
        { jobFilename := some (String.intercalate ", "
            (expectedPaths outputDir title id imgs.length imgs 0))
          downloaded := expectedPaths outputDir title id imgs.length imgs 0
          error := none }) ∧
    ((imgs = good ++ bad :: rest ∧ (∀ g ∈ good, dl g.url = none) ∧ dl bad.url = some e) →
      downloadImages dl outputDir title id imgs =
        { jobFilename := none
          downloaded := expectedPaths outputDir title id imgs.length good 0
          error := some ("failed to download image " ++ toString (good.length + 1) ++ ": " ++ e) }) ∧
    (∀ e1 : String, imagePath outputDir title id 1 0 e1 =
      outputDir ++ "/" ++ (if title ≠ "" then title else id) ++ "." ++ e1) ∧
    (∀ (count i : Nat) (e1 : String), count ≠ 1 →
      imagePath outputDir title id count i e1 =
        outputDir ++ "/" ++ (if title ≠ "" then title else id) ++ "_" ++ toString (i + 1) ++ "." ++ e1) := by
  refine ⟨?_, ?_, ?_, ?_⟩
  · rintro ⟨hne, hall⟩
    have hlen : ¬ imgs.length = 0 := by
      intro h0
      exact hne (List.length_eq_zero.mp h0)
    simp only [downloadImages, hlen, if_false]
    rw [downloadImagesAux_success dl outputDir title id imgs.length imgs 0 [] [] hall]
    simp
  · rintro ⟨heq, hgood, hbad⟩
    have hlen : ¬ imgs.length = 0 := by
      intro h0
      rw [heq] at h0
      simp at h0
    simp only [downloadImages, hlen, if_false]
    rw [heq]
    rw [downloadImagesAux_fail dl outputDir title id _ bad e hbad rest good 0 [] [] hgood]
    simp
  · intro e1
    by_cases ht : title ≠ "" <;> simp [imagePath, ht]
  · intro count i e1 hc
    by_cases ht : title ≠ "" <;> simp [imagePath, hc, ht]

/-- Witness for C6: a three-image list whose second image fails aborts with
an error naming image 2, after downloading exactly the first image. -/
theorem downloadImages_sequential_witness :
    downloadImages (fun u => if u = "bad" then some "404" else none) "/out" "pic" "id9"
      [⟨"a", "jpg"⟩, ⟨"bad", "png"⟩, ⟨"c", "jpg"⟩] =
      { jobFilename := none
        downloaded := ["/out/pic_1.jpg"]
        error := some "failed to download image 2: 404" } := by
  have h := (downloadImages_sequential (fun u => if u = "bad" then some "404" else none)
      "/out" "pic" "id9" [⟨"a", "jpg"⟩, ⟨"bad", "png"⟩, ⟨"c", "jpg"⟩]
      [⟨"a", "jpg"⟩] [⟨"c", "jpg"⟩] ⟨"bad", "png"⟩ "404").2.1
      ⟨rfl, by decide, by decide⟩
  rw [h]
  decide

/-! ## C8: manifest-extension correction -/

theorem strEq_of_data {s t : String} (h : s.data = t.data) : s = t := by
  cases s
  cases t
  exact congrArg String.mk h

theorem str_append_empty (s : String) : s ++ "" = s :=
  strEq_of_data (by simp [strData_append])

theorem lower_dot_ts_ends (s : String) :
    listEnds (strLower (s ++ "." ++ "ts")).data ".ts".data = true := by
  have hdata : (strLower (s ++ "." ++ "ts")).data = (strLower s).data ++ ".ts".data := by
    rw [strLower_data_append, strLower_data_append, List.append_assoc]
    congr 1
  rw [hdata]
  exact listEnds_append _ _

theorem videoOutputName_ends_ts (sanitize : String → String)
    (filename title id : String) :
    listEnds (strLower (videoOutputName sanitize filename title id "m3u8")).data ".ts".data = true := by
  by_cases hf : filename ≠ ""
  · by_cases hs : strHasSuf (strLower (sanitize filename)) ".ts" = true
    · have hname : videoOutputName sanitize filename title id "m3u8" = sanitize filename := by
        simp [videoOutputName, hf, hs]
      rw [hname]
      simpa [strHasSuf] using hs
    · have hname : videoOutputName sanitize filename title id "m3u8" =
          sanitize filename ++ "." ++ "ts" := by
        simp [videoOutputName, hf, hs]
      rw [hname]
      exact lower_dot_ts_ends _
  · by_cases ht : sanitize title ≠ ""
    · have hname : videoOutputName sanitize filename title id "m3u8" =
          sanitize title ++ "." ++ "ts" := by
        simp [videoOutputName, hf, ht]
      rw [hname]
      exact lower_dot_ts_ends _
    · have hname : videoOutputName sanitize filename title id "m3u8" =
          id ++ "." ++ "ts" := by
        simp [videoOutputName, hf, ht]
      rw [hname]
      exact lower_dot_ts_ends _

theorem listStarts_head_clash (x y : List Char) :
    ∀ l : List Char, listStarts l ('s' :: x) = true → listStarts l ('8' :: y) = false := by
  intro l
  cases l with
  | nil => intro h; simp [listStarts] at h
  | cons a rest =>
    intro h
    simp only [listStarts, Bool.and_eq_true, beq_iff_eq] at h
    simp [listStarts, h.1]

theorem ends_ts_not_m3u8 (l : List Char) (h : listEnds l ".ts".data = true) :
    listEnds l ".m3u8".data = false := by
  simp only [listEnds] at *
  have h1 : (".ts".data.reverse) = 's' :: ['t', '.'] := by decide
  have h2 : (".m3u8".data.reverse) = '8' :: ['u', '3', 'm', '.'] := by decide
  rw [h1] at h
  rw [h2]
  exact listStarts_head_clash _ _ _ h

/-- C8: for every video download whose selected format declares the
manifest extension `m3u8`, the resolved output path ends (case-insensitively)
in the raw-segment container extension `.ts`, and never in the manifest
extension `.m3u8` — for every sanitizer, requested filename, title, media
ID and output directory. -/
theorem videoOutputPath_m3u8_corrected (sanitize : String → String)
    (outputDir filename title id : String) :
    listEnds (strLower (videoOutputPath sanitize outputDir filename title id "m3u8")).data
      ".ts".data = true ∧
    listEnds (strLower (videoOutputPath sanitize outputDir filename title id "m3u8")).data
      ".m3u8".data = false := by
  have hts : listEnds (strLower (videoOutputPath sanitize outputDir filename title id "m3u8")).data
      ".ts".data = true := by
    have hdata : (strLower (videoOutputPath sanitize outputDir filename title id "m3u8")).data =
        (strLower (outputDir ++ "/")).data ++
          (strLower (videoOutputName sanitize filename title id "m3u8")).data := by
      simp only [videoOutputPath]
      rw [← strLower_data_append]
    rw [hdata]
    exact listEnds_mono _ _ _ (videoOutputName_ends_ts sanitize filename title id)
  exact ⟨hts, ends_ts_not_m3u8 _ hts⟩

/-! ## C9: the sibling audio path -/

theorem extAux_cases :
    ∀ (l acc : List Char),
      extAux l acc = "" ∨
      ∃ pre rest, l = pre ++ '.' :: rest ∧ (extAux l acc).data = '.' :: (pre.reverse ++ acc) := by
  intro l
  induction l with
  | nil => intro acc; exact Or.inl rfl
  | cons c rest ih =>
    intro acc
    by_cases h1 : c = '/'
    · exact Or.inl (by simp [extAux, h1])
    · by_cases h2 : c = '.'
      · refine Or.inr ⟨[], rest, by rw [h2]; rfl, ?_⟩
        simp [extAux, h1, h2]
      · rcases ih (c :: acc) with h | ⟨pre, r2, hl, hd⟩
        · left
          simpa [extAux, h1, h2] using h
        · right
          refine ⟨c :: pre, r2, by rw [List.cons_append, ← hl], ?_⟩
          have hstep : extAux (c :: rest) acc = extAux rest (c :: acc) := by
            simp [extAux, h1, h2]
          rw [hstep, hd]
          simp [List.reverse_cons, List.append_assoc]

theorem filepathExt_reconstruct (p : String) :
    trimSuffix p (filepathExt p) ++ filepathExt p = p := by
  rcases extAux_cases p.data.reverse [] with h | ⟨pre, rest, hl, hd⟩
  · have he : filepathExt p = "" := h
    rw [he, str_append_empty]
    have hends : listEnds p.data ("" : String).data = true := by
      cases hrev : p.data.reverse <;> simp [listEnds, listStarts, hrev]
    simp only [trimSuffix, hends, if_true]
    exact strEq_of_data (by simp)
  · have hp : p.data = rest.reverse ++ (filepathExt p).data := by
      have : p.data = (pre ++ '.' :: rest).reverse := by
        rw [← hl, List.reverse_reverse]
      rw [this, List.reverse_append, List.reverse_cons, List.append_assoc]
      have hdr : (filepathExt p).data = '.' :: pre.reverse := by
        simpa using hd
      rw [hdr]
      rfl
    have hends : listEnds p.data (filepathExt p).data = true := by
      rw [hp]
      exact listEnds_append _ _
    refine strEq_of_data ?_
    rw [strData_append]
    simp only [trimSuffix, hends, if_true]
    rw [hp]
    have hlen : (rest.reverse ++ (filepathExt p).data).length - (filepathExt p).data.length =
        rest.reverse.length := by
      simp [List.length_append]
    rw [hlen, List.take_left]

theorem str_dot_append (t a b : String) (h : ".".data ++ a.data = b.data) :
    t ++ "." ++ a = t ++ b := by
  refine strEq_of_data ?_
  rw [strData_append, strData_append, strData_append, List.append_assoc, h]

/-- C9: for every dual-stream job the sibling audio output path is the
video output path with its (possibly empty) extension replaced by `m4a`,
or by `opus` when the video format's container extension is `webm`; the
first conjunct certifies that `trimSuffix p (filepathExt p)` is exactly the
video path minus its extension. -/
theorem audioSiblingPath_replaces_extension (p fmtExt : String) :
    trimSuffix p (filepathExt p) ++ filepathExt p = p ∧
    audioSiblingPath p fmtExt =
      trimSuffix p (filepathExt p) ++ (if fmtExt = "webm" then ".opus" else ".m4a") := by
  refine ⟨filepathExt_reconstruct p, ?_⟩
  by_cases h : fmtExt = "webm"
  · simp only [audioSiblingPath, h, if_true, if_pos rfl]
    exact str_dot_append _ _ _ (by decide)
  · simp only [audioSiblingPath, h, if_false]
    exact str_dot_append _ _ _ (by decide)

/-! ## C10: the local-file-download guard -/

/-- C10: the `handleFileDownload` guard serves a file exactly when the
absolute requested path has the absolute output directory as a plain
string prefix (and the file exists), and rejects with 403 exactly when the
prefix test fails; the test is character-level, so a sibling directory
whose name extends the output directory's name passes the guard. -/
theorem handleFileDownload_guard (d p : String) (e : Bool) :
    (handleFileDownload d p e = FileReply.served ↔
      (listStarts p.data d.data = true ∧ e = true)) ∧
    (handleFileDownload d p e = FileReply.forbidden ↔ listStarts p.data d.data = false) ∧
    handleFileDownload "/data/out" "/data/output-evil/secret.mp4" true = FileReply.served ∧
    handleFileDownload "/data/out" "/data/out/a.mp4" true = FileReply.served ∧
    handleFileDownload "/data/out" "/elsewhere/a.mp4" true = FileReply.forbidden := by
  refine ⟨?_, ?_, by decide, by decide, by decide⟩
  · cases h : listStarts p.data d.data <;> cases e <;> simp [handleFileDownload, h]
  · cases h : listStarts p.data d.data <;> cases e <;> simp [handleFileDownload, h]

end VGet
